import Mathlib

/-!
Verification of the plumnote note store (`src/plumnote.go`) against its
specification.  Go maps (`map[uint32]Note`) are modelled as association
lists, Go map iteration as a left fold over the list representation,
`time.Time` at one-second granularity as an integer count of seconds in
local time, and the fixed-width casts of the source (`int32`, `uint32`)
as explicit modular arithmetic on `Nat`/`Int`.
-/

namespace Plumnote

/-- One note record, from the `Note` struct of `src/plumnote.go` (lines 24-31). -/
structure Note where
  id : Nat
  kind : String
  tags : List String
  text : String
  date : Int
  author : String
deriving DecidableEq, Repr

/-- The zero value of the Go `Note` struct: reading a missing key out of a
`map[uint32]Note` yields this record. -/
def zeroNote : Note := { id := 0, kind := "", tags := [], text := "", date := 0, author := "" }

/-- `Notes = map[uint32]Note` (line 34), modelled as an association list. -/
abbrev Notes := List (Nat × Note)

/-- Whether the map holds an entry under key `k`. -/
def containsKey (ns : Notes) (k : Nat) : Bool := ns.any (fun kv => kv.1 == k)

/-- Go map assignment `ns[k] = v`: overwrite the entry at `k` when present,
otherwise add a fresh entry. -/
def insertNote (ns : Notes) (k : Nat) (v : Note) : Notes :=
  if containsKey ns k then ns.map (fun kv => if kv.1 == k then (k, v) else kv)
  else ns ++ [(k, v)]

/-- Go map read `ns[k]`, comma-ok form. -/
def findNote (ns : Notes) (k : Nat) : Option Note :=
  (ns.find? (fun kv => kv.1 == k)).map (fun kv => kv.2)

/-- Well-formedness: every entry is keyed by its note's id (true of every map
the program builds, since all writes are of the shape `m[note.Id] = note`). -/
def keyed (ns : Notes) : Prop := ∀ kv ∈ ns, kv.1 = kv.2.id

/-- Well-formedness: the keys are pairwise distinct (automatic for a Go map). -/
def keysUnique (ns : Notes) : Prop := (ns.map Prod.fst).Nodup

instance (ns : Notes) : Decidable (keyed ns) := List.decidableBAll _ ns

instance (ns : Notes) : Decidable (keysUnique ns) := List.nodupDecidable _

/-- The loop shape shared by the single-predicate query filters
(`getNotesByTag` lines 55-64, `getNotesByKind` lines 66-75, `getNotesByAuthor`
lines 99-108, and the loop of `getNotesByDate` lines 90-94): start from a fresh
empty map and copy over every note satisfying the predicate, keyed by its id. -/
def notesFilter (p : Note → Bool) (notes : Notes) : Notes :=
  notes.foldl (fun filtered kv => if p kv.2 then insertNote filtered kv.2.id kv.2 else filtered) []

/-- `getNotesByTag` (lines 55-64): the notes whose tag list contains `tag`. -/
def getNotesByTag (tag : String) (notes : Notes) : Notes :=
  notesFilter (fun note => note.tags.contains tag) notes

/-- `getNotesByTagsExact` (lines 36-43): sequential narrowing, one tag at a time. -/
def getNotesByTagsExact (tags : List String) (notes : Notes) : Notes :=
  tags.foldl (fun filtered tag => getNotesByTag tag filtered) notes

/-- `maps.Copy(dst, src)`: insert every entry of `src` into `dst`, overwriting
on key collision. -/
def mapsCopy (dst src : Notes) : Notes :=
  src.foldl (fun d kv => insertNote d kv.1 kv.2) dst

/-- `getNotesByTags` (lines 45-53): copy each single-tag result into one map. -/
def getNotesByTags (tags : List String) (notes : Notes) : Notes :=
  tags.foldl (fun filtered tag => mapsCopy filtered (getNotesByTag tag notes)) []

/-- `getNotesByDate` (lines 77-97) after date parsing.  `time.ParseInLocation`
with format `02/01/2006` yields local midnight of the given calendar day,
modelled as `day * 86400` seconds; line 88 then extends the end instant by
`23h59m59s = 86399` seconds.  A note matches when
`startDate.Compare(d) == -1 && endDate.Compare(d) == 1` (line 91), i.e.
strictly after the start instant and strictly before the end instant. -/
def getNotesByDate (startDay endDay : Nat) (notes : Notes) : Notes :=
  let startDate : Int := startDay * 86400
  let endDate : Int := endDay * 86400 + 86399
  notesFilter (fun note => decide (startDate < note.date ∧ note.date < endDate)) notes

/-- Two's-complement reading of a `uint32` value as `int32`: the cast
`int32(note.Id)` on line 113. -/
def int32ofUInt32 (n : Nat) : Int := if n < 2 ^ 31 then (n : Int) else (n : Int) - 2 ^ 32

/-- `getHighestId` (lines 110-119): maximum of the ids read as `int32`,
starting from `-1`. -/
def getHighestId (notes : Notes) : Int :=
  notes.foldl (fun highest kv =>
    if highest < int32ofUInt32 kv.2.id then int32ofUInt32 kv.2.id else highest) (-1)

/-- Wrap an integer into `int32` range (Go signed addition wraps around). -/
def int32wrap (v : Int) : Int := (v + 2 ^ 31) % 2 ^ 32 - 2 ^ 31

/-- The Go conversion `uint32(v)` of a signed value `v`. -/
def uint32ofInt (v : Int) : Nat := (v % 2 ^ 32).toNat

/-- The fresh id computed by `addNote` (line 238):
`uint32(getHighestId(notes) + 1)`, the `+ 1` performed in `int32`. -/
def freshId (notes : Notes) : Nat := uint32ofInt (int32wrap (getHighestId notes + 1))

/-- The collection mutation of `addNote` (lines 238-247): insert the new note
under the fresh id. -/
def addNoteCore (noteKind : String) (tags : List String) (text : String)
    (now : Int) (author : String) (notes : Notes) : Notes :=
  let id := freshId notes
  insertNote notes id
    { id := id, kind := noteKind, tags := tags, text := text, date := now, author := author }

/-- The `--id` branch of `filterNotes` (lines 258-260): write `notes[uint32(id)]`
— the zero `Note` when that id is absent — into slot `0` of a fresh result map,
so the result always holds exactly one entry. -/
def filterNotesById (id : Int) (notes : Notes) : Notes :=
  insertNote [] 0 ((findNote notes (uint32ofInt id)).getD zeroNote)

/-- `strings.Split(s, ",")`; for a non-empty separator Go and Lean agree. -/
def splitComma (s : String) : List String := s.splitOn ","

/-- `updateNote` (lines 327-364) after id parsing: read `notes[id]` (the zero
value when the id is absent), replace the selected field, write the record
back.  The returned collection is the one handed to `save` on line 361. -/
def updateNote (id : Nat) (updateType updateValue : String) (notes : Notes) :
    Except String Notes :=
  let note := (findNote notes id).getD zeroNote
  if updateType = "-t" ∨ updateType = "--tags" then
    .ok (insertNote notes id { note with tags := splitComma updateValue })
  else if updateType = "-k" ∨ updateType = "--kind" then
    .ok (insertNote notes id { note with kind := updateValue })
  else if updateType = "-n" ∨ updateType = "--note" then
    .ok (insertNote notes id { note with text := updateValue })
  else .error "usage: plumnote update <id> --[tags, note, kind] <value>"

/-- `strconv.Atoi`, modelled for optional-sign-and-digits inputs. -/
def atoi (s : String) : Option Int := s.toInt?

/-- Outcome of the flag-scanning loop of `removeNote`: a parsed id, the early
`return err` of a failed `Atoi`, or an out-of-range index access (a Go runtime
fault, not a returned error). -/
inductive ScanOutcome where
  | ok (id : Nat)
  | err (msg : String)
  | outOfRange
deriving DecidableEq, Repr

/-- The flag-scanning loop of `removeNote` (lines 177-185), iterating over the
suffix of `args` starting at the loop index `i` (so `args[i]` is the head and
`i+1 < len(args)` means the tail is non-empty).  Go operator precedence parses
the condition on line 178 as
`args[i] == "-i" || (args[i] == "--id" && i+1 < len(args))`, so the bounds
check guards only the long flag and `args[i+1]` is read whenever the condition
holds. -/
def removeNoteScanLoop (rest : List String) (id : Nat) : ScanOutcome :=
  match rest with
  | [] => .ok id
  | a :: tl =>
    if a = "-i" ∨ (a = "--id" ∧ tl ≠ []) then
      match tl with
      | [] => .outOfRange
      | s :: _ =>
        match atoi s with
        | none => .err "invalid syntax"
        | some v => removeNoteScanLoop tl (uint32ofInt v)
    else removeNoteScanLoop tl id

/-- Entry point of the `removeNote` argument scan (`id` starts at the `uint32`
zero value). -/
def removeNoteScan (args : List String) : ScanOutcome := removeNoteScanLoop args 0

/-- The kind/tags/text triple accumulated by the `addNote` argument scan. -/
structure AddScanState where
  noteKind : String
  tags : List String
  text : String
deriving DecidableEq, Repr

/-- Outcome of the flag-scanning loop of `addNote`. -/
inductive AddScanOutcome where
  | ok (st : AddScanState)
  | outOfRange
deriving DecidableEq, Repr

/-- The flag-scanning loop of `addNote` (lines 211-221), iterating over the
suffix of `args` starting at the loop index (a matched flag consumes its value
with the inner `i++`, so the recursion skips two elements there).  The same
precedence slip as in `removeNote` sits on lines 212 and 215: the bounds check
`i+1 < len(args)` guards only the long flags `--kind` and `--tags`, not `-k`
and `-t`. -/
def addNoteScanLoop (rest : List String) (st : AddScanState) : AddScanOutcome :=
  match rest with
  | [] => .ok st
  | a :: tl =>
    if a = "-k" ∨ (a = "--kind" ∧ tl ≠ []) then
      match tl with
      | [] => .outOfRange
      | v :: tl2 => addNoteScanLoop tl2 { st with noteKind := v }
    else if a = "-t" ∨ (a = "--tags" ∧ tl ≠ []) then
      match tl with
      | [] => .outOfRange
      | v :: tl2 => addNoteScanLoop tl2 { st with tags := splitComma v }
    else if ¬ a.startsWith "--" then
      addNoteScanLoop tl { st with text := a }
    else
      addNoteScanLoop tl st

/-- Entry point of the `addNote` argument scan (zero values of the three
accumulated variables). -/
def addNoteScan (args : List String) : AddScanOutcome :=
  addNoteScanLoop args { noteKind := "", tags := [], text := "" }

/-- The parse outcome of the persisted document: absent, present but
undecodable, or a decoded collection.  The JSON codec and the filesystem are
collaborators; the store is modelled by what `os.ReadFile` plus
`json.Unmarshal` yield for the document. -/
inductive DocState where
  | absent
  | corrupt
  | valid (ns : Notes)

/-- One storage location: whether `os.MkdirAll` on the parent directory
succeeds, and the state of the document itself. -/
structure Storage where
  ensureOk : Bool
  doc : DocState

/-- `load` (lines 146-159) instantiated at `Notes`: ensure the parent
directory exists, treat a missing document as the empty collection ( line 151:
`os.IsNotExist` returns `nil` leaving the caller's fresh map empty), propagate
decode failures of an existing document. -/
def load (s : Storage) : Except String Notes :=
  if s.ensureOk then
    match s.doc with
    | .absent => .ok []
    | .corrupt => .error "CorruptStore"
    | .valid ns => .ok ns
  else .error "StoreUnavailable"

/-!
The sync engine.  The specification (§4.3) describes a two-way merge protocol
over notes carrying a `synced` dirty bit, but no sync code and no `synced`
field appear in `src/`; the definitions below are modelled from the spec.
-/

/-- Modelled from the spec: the note record of the sync-enabled design (§3),
the storage form carrying the `synced` dirty bit.  Missing from `src/`. -/
structure SNote where
  id : Nat
  kind : String
  tags : List String
  text : String
  date : Int
  author : String
  synced : Bool
deriving DecidableEq, Repr

/-- Modelled from the spec: a transferable note (§4.3 step 2): the same fields
minus `synced`, which is never transmitted.  Missing from `src/`. -/
structure TNote where
  id : Nat
  kind : String
  tags : List String
  text : String
  date : Int
  author : String
deriving DecidableEq, Repr

/-- A sync-enabled store: the collection keyed by id, as an association list. -/
abbrev SStore := List (Nat × SNote)

/-- Drop the `synced` field for transfer. -/
def toTransferable (n : SNote) : TNote :=
  { id := n.id, kind := n.kind, tags := n.tags, text := n.text,
    date := n.date, author := n.author }

/-- Receive a transferred note: same fields, `synced` forced to `true`. -/
def ofTransferable (t : TNote) : SNote :=
  { id := t.id, kind := t.kind, tags := t.tags, text := t.text,
    date := t.date, author := t.author, synced := true }

/-- Map assignment for a sync store. -/
def insertS (s : SStore) (k : Nat) (v : SNote) : SStore :=
  if s.any (fun kv => kv.1 == k) then s.map (fun kv => if kv.1 == k then (k, v) else kv)
  else s ++ [(k, v)]

/-- Modelled from the spec: collect-out (§4.3 step 5 and initiator step 1):
scan for entries with `synced = false`, produce their transferable forms, and
mark every such local entry synced.  Missing from `src/`. -/
def collectOut (s : SStore) : List TNote × SStore :=
  ((s.filter (fun kv => !kv.2.synced)).map (fun kv => toTransferable kv.2),
   s.map (fun kv => (kv.1, { kv.2 with synced := true })))

/-- Modelled from the spec: merge-in (§4.3 step 3): unconditionally overwrite
or insert the local entry at each transferred id, `synced = true`.  Missing
from `src/`. -/
def mergeIn (s : SStore) (batch : List TNote) : SStore :=
  batch.foldl (fun acc t => insertS acc t.id (ofTransferable t)) s

/-- Modelled from the spec: one full exchange between initiator `a` and
responder `b` (§4.3): `a` collects out and sends; `b` merges in, collects out
and responds; `a` merges the response in.  Returns the two transferred batches
and the two final stores.  Missing from `src/`. -/
def exchange (a b : SStore) : (List TNote × List TNote) × (SStore × SStore) :=
  let outA := collectOut a
  let b1 := mergeIn b outA.1
  let outB := collectOut b1
  let a2 := mergeIn outA.2 outB.1
  ((outA.1, outB.1), (a2, outB.2))

/-! ### Basic facts about the association-list model of Go maps -/

theorem mem_keys_iff {ns : Notes} {k : Nat} :
    k ∈ ns.map Prod.fst ↔ ∃ m, (k, m) ∈ ns := by
  constructor
  · intro h
    obtain ⟨⟨k1, m⟩, hmem, hk⟩ := List.mem_map.mp h
    exact ⟨m, by simpa [← hk] using hmem⟩
  · rintro ⟨m, hm⟩
    exact List.mem_map.mpr ⟨(k, m), hm, rfl⟩

theorem containsKey_iff {ns : Notes} {k : Nat} :
    containsKey ns k = true ↔ ∃ m, (k, m) ∈ ns := by
  simp only [containsKey, List.any_eq_true, beq_iff_eq]
  constructor
  · rintro ⟨⟨k1, m⟩, hmem, hk⟩
    exact ⟨m, by simpa [← hk] using hmem⟩
  · rintro ⟨m, hm⟩
    exact ⟨(k, m), hm, rfl⟩

theorem containsKey_false_iff {ns : Notes} {k : Nat} :
    containsKey ns k = false ↔ ∀ m, (k, m) ∉ ns := by
  rw [← Bool.not_eq_true, containsKey_iff]
  push_neg
  rfl

theorem insertNote_fresh {ns : Notes} {k : Nat} {v : Note}
    (h : containsKey ns k = false) : insertNote ns k v = ns ++ [(k, v)] := by
  simp [insertNote, h]

theorem mem_insertNote {dst : Notes} {k0 k : Nat} {v n : Note} :
    (k, n) ∈ insertNote dst k0 v ↔ ((k, n) = (k0, v) ∨ ((k, n) ∈ dst ∧ k ≠ k0)) := by
  unfold insertNote
  by_cases h : containsKey dst k0
  · simp only [h, if_true, List.mem_map]
    constructor
    · rintro ⟨⟨k1, m⟩, hmem, heq⟩
      by_cases hk : k1 = k0
      · simp only [hk, beq_self_eq_true, if_true] at heq
        exact Or.inl heq.symm
      · simp only [beq_iff_eq, hk, if_false] at heq
        obtain ⟨hk1, hm⟩ := Prod.mk.injEq .. ▸ heq
        exact Or.inr ⟨by rw [← hk1, ← hm]; exact hmem, by rw [← hk1]; exact hk⟩
    · rintro (heq | ⟨hmem, hk⟩)
      · obtain ⟨m, hm⟩ := containsKey_iff.mp h
        refine ⟨(k0, m), hm, ?_⟩
        simp [heq.symm]
      · exact ⟨(k, n), hmem, by simp [hk]⟩
  · rw [Bool.not_eq_true] at h
    simp only [h, Bool.false_eq_true, if_false, List.mem_append, List.mem_singleton]
    constructor
    · rintro (hmem | heq)
      · refine Or.inr ⟨hmem, fun hk => ?_⟩
        exact (containsKey_false_iff.mp h n) (hk ▸ hmem)
      · exact Or.inl heq
    · rintro (heq | ⟨hmem, _⟩)
      · exact Or.inr heq
      · exact Or.inl hmem

theorem keysUnique_insertNote {dst : Notes} {k0 : Nat} {v : Note}
    (h : keysUnique dst) : keysUnique (insertNote dst k0 v) := by
  unfold insertNote
  by_cases hc : containsKey dst k0
  · simp only [hc, if_true]
    have heq : (dst.map (fun kv => if kv.1 == k0 then (k0, v) else kv)).map Prod.fst
        = dst.map Prod.fst := by
      rw [List.map_map]
      apply List.map_congr_left
      intro kv _
      by_cases hk : kv.1 = k0
      · simp [hk]
      · simp [hk]
    unfold keysUnique
    rw [heq]
    exact h
  · rw [Bool.not_eq_true] at hc
    simp only [hc, Bool.false_eq_true, if_false]
    unfold keysUnique at h ⊢
    rw [List.map_append]
    refine List.Nodup.append h (List.nodup_singleton _) ?_
    intro x hx hx1
    simp only [List.map_cons, List.map_nil, List.mem_singleton] at hx1
    obtain ⟨m, hm⟩ := mem_keys_iff.mp hx
    exact containsKey_false_iff.mp hc m (hx1 ▸ hm)

theorem eq_of_mem_keysUnique {ns : Notes} {k : Nat} {n m : Note}
    (hu : keysUnique ns) (hn : (k, n) ∈ ns) (hm : (k, m) ∈ ns) : n = m := by
  induction ns with
  | nil => cases hn
  | cons hd rest ih =>
    unfold keysUnique at hu
    rw [List.map_cons, List.nodup_cons] at hu
    rcases List.mem_cons.mp hn with hn1 | hn1 <;>
      rcases List.mem_cons.mp hm with hm1 | hm1
    · rw [← hn1] at hm1
      exact (Prod.mk.injEq .. ▸ hm1.symm).2
    · exact absurd (mem_keys_iff.mpr ⟨m, hm1⟩) (by rw [← hn1] at hu; exact hu.1)
    · exact absurd (mem_keys_iff.mpr ⟨n, hn1⟩) (by rw [← hm1] at hu; exact hu.1)
    · exact ih hu.2 hn1 hm1

/-! ### The single-predicate filters compute `List.filter` on well-formed maps -/

theorem notesFilter_go (p : Note → Bool) (ns : Notes) :
    ∀ acc : Notes, keyed ns → keysUnique ns →
      (∀ kv ∈ ns, containsKey acc kv.2.id = false) →
      ns.foldl (fun filtered kv => if p kv.2 then insertNote filtered kv.2.id kv.2 else filtered) acc
        = acc ++ ns.filter (fun kv => p kv.2) := by
  induction ns with
  | nil => intro acc _ _ _; simp
  | cons hd rest ih =>
    intro acc hk hu hfresh
    obtain ⟨k0, n0⟩ := hd
    have hk0 : k0 = n0.id := hk (k0, n0) (List.mem_cons_self _ _)
    have hkrest : keyed rest := fun kv hkv => hk kv (List.mem_cons_of_mem _ hkv)
    have hu1 : k0 ∉ rest.map Prod.fst ∧ (rest.map Prod.fst).Nodup := by
      unfold keysUnique at hu
      rw [List.map_cons, List.nodup_cons] at hu
      exact hu
    by_cases hp : p n0 = true
    · rw [List.foldl_cons]
      simp only [hp, if_true]
      rw [insertNote_fresh (hfresh (k0, n0) (List.mem_cons_self _ _))]
      rw [ih (acc ++ [(n0.id, n0)]) hkrest hu1.2 ?_]
      · simp [List.filter_cons, hp, ← hk0, List.append_assoc]
      · intro kv hkv
        have h1 : containsKey acc kv.2.id = false :=
          hfresh kv (List.mem_cons_of_mem _ hkv)
        have h2 : n0.id ≠ kv.2.id := by
          intro hcontra
          apply hu1.1
          rw [hk0, hcontra, ← hkrest kv hkv]
          exact List.mem_map.mpr ⟨kv, hkv, rfl⟩
        unfold containsKey at h1 ⊢
        rw [List.any_append, h1]
        simp [h2]
    · rw [Bool.not_eq_true] at hp
      rw [List.foldl_cons]
      simp only [hp, Bool.false_eq_true, if_false]
      rw [ih acc hkrest hu1.2 (fun kv hkv => hfresh kv (List.mem_cons_of_mem _ hkv))]
      simp [List.filter_cons, hp]

theorem notesFilter_eq_filter (p : Note → Bool) (ns : Notes)
    (hk : keyed ns) (hu : keysUnique ns) :
    notesFilter p ns = ns.filter (fun kv => p kv.2) := by
  have h := notesFilter_go p ns [] hk hu (fun kv _ => rfl)
  simpa [notesFilter] using h

theorem keyed_filter {ns : Notes} (q : Nat × Note → Bool) (hk : keyed ns) :
    keyed (ns.filter q) :=
  fun kv hkv => hk kv (List.mem_of_mem_filter hkv)

theorem keysUnique_filter {ns : Notes} (q : Nat × Note → Bool) (hu : keysUnique ns) :
    keysUnique (ns.filter q) :=
  List.Nodup.sublist ((List.filter_sublist ns).map Prod.fst) hu

theorem getNotesByTag_eq_filter (tag : String) (ns : Notes)
    (hk : keyed ns) (hu : keysUnique ns) :
    getNotesByTag tag ns = ns.filter (fun kv => kv.2.tags.contains tag) :=
  notesFilter_eq_filter _ ns hk hu

theorem getNotesByTagsExact_eq_filter (tags : List String) :
    ∀ ns : Notes, keyed ns → keysUnique ns →
      getNotesByTagsExact tags ns
        = ns.filter (fun kv => tags.all (fun t => kv.2.tags.contains t)) := by
  induction tags with
  | nil =>
    intro ns _ _
    simp [getNotesByTagsExact]
  | cons t ts ih =>
    intro ns hk hu
    have h1 : getNotesByTagsExact (t :: ts) ns = getNotesByTagsExact ts (getNotesByTag t ns) := rfl
    rw [h1, getNotesByTag_eq_filter t ns hk hu,
      ih _ (keyed_filter _ hk) (keysUnique_filter _ hu), List.filter_filter]
    apply List.filter_congr
    intro kv _
    simp [List.all_cons, Bool.and_comm]

/-! ### `maps.Copy` and the any-of union -/

theorem keysUnique_mapsCopy (src : Notes) :
    ∀ dst : Notes, keysUnique dst → keysUnique (mapsCopy dst src) := by
  induction src with
  | nil => intro dst h; exact h
  | cons hd rest ih =>
    intro dst h
    exact ih (insertNote dst hd.1 hd.2) (keysUnique_insertNote h)

theorem mem_mapsCopy {k : Nat} {n : Note} (src : Notes) :
    ∀ dst : Notes, keysUnique src →
      ((k, n) ∈ mapsCopy dst src ↔
        ((k, n) ∈ src ∨ ((k, n) ∈ dst ∧ containsKey src k = false))) := by
  induction src with
  | nil => intro dst _; simp [mapsCopy, containsKey]
  | cons hd rest ih =>
    intro dst hu
    obtain ⟨k0, v⟩ := hd
    have hu1 : k0 ∉ rest.map Prod.fst ∧ (rest.map Prod.fst).Nodup := by
      unfold keysUnique at hu
      rw [List.map_cons, List.nodup_cons] at hu
      exact hu
    have hstep : mapsCopy dst ((k0, v) :: rest) = mapsCopy (insertNote dst k0 v) rest := rfl
    rw [hstep, ih (insertNote dst k0 v) hu1.2]
    have hck : ∀ m : Note, (k0, m) ∉ rest := by
      intro m hm
      exact hu1.1 (mem_keys_iff.mpr ⟨m, hm⟩)
    constructor
    · rintro (hmem | ⟨hmem, hfree⟩)
      · exact Or.inl (List.mem_cons_of_mem _ hmem)
      · rcases mem_insertNote.mp hmem with heq | ⟨hdst, hne⟩
        · exact Or.inl (List.mem_cons.mpr (Or.inl heq))
        · refine Or.inr ⟨hdst, ?_⟩
          unfold containsKey at hfree ⊢
          rw [List.any_cons, hfree]
          simp
          intro hk
          exact hne hk.symm
    · rintro (hmem | ⟨hdst, hfree⟩)
      · rcases List.mem_cons.mp hmem with heq | hmem1
        · refine Or.inr ⟨mem_insertNote.mpr (Or.inl heq), ?_⟩
          rw [containsKey_false_iff]
          intro m hm
          obtain ⟨hk1, _⟩ := Prod.mk.injEq .. ▸ heq
          exact hck m (hk1 ▸ hm)
        · exact Or.inl hmem1
      · have hfree1 : containsKey rest k = false ∧ (k0 = k → False) := by
          unfold containsKey at hfree
          rw [List.any_cons] at hfree
          simp only [Bool.or_eq_false_iff] at hfree
          refine ⟨hfree.2, fun hk => ?_⟩
          have := hfree.1
          simp [hk] at this
        refine Or.inr ⟨mem_insertNote.mpr (Or.inr ⟨hdst, fun hk => hfree1.2 hk.symm⟩), hfree1.1⟩

theorem mapsCopy_subset {src dst ns : Notes} (hu : keysUnique src)
    (hsrc : ∀ kv ∈ src, kv ∈ ns) (hdst : ∀ kv ∈ dst, kv ∈ ns) :
    ∀ kv ∈ mapsCopy dst src, kv ∈ ns := by
  rintro ⟨k, n⟩ hkv
  rcases (mem_mapsCopy src dst hu).mp hkv with hmem | ⟨hmem, _⟩
  · exact hsrc _ hmem
  · exact hdst _ hmem

theorem getNotesByTags_go (ns : Notes) (hk : keyed ns) (hu : keysUnique ns)
    (k : Nat) (n : Note) (tags : List String) :
    ∀ acc : Notes, keysUnique acc → (∀ kv ∈ acc, kv ∈ ns) →
      ((k, n) ∈ tags.foldl (fun filtered tag => mapsCopy filtered (getNotesByTag tag ns)) acc ↔
        ((k, n) ∈ acc ∨ ((k, n) ∈ ns ∧ tags.any (fun t => n.tags.contains t) = true))) := by
  induction tags with
  | nil => intro acc _ _; simp
  | cons t ts ih =>
    intro acc hacc haccsub
    have hsrc : getNotesByTag t ns = ns.filter (fun kv => kv.2.tags.contains t) :=
      getNotesByTag_eq_filter t ns hk hu
    have husrc : keysUnique (getNotesByTag t ns) := hsrc ▸ keysUnique_filter _ hu
    have hsrcsub : ∀ kv ∈ getNotesByTag t ns, kv ∈ ns := by
      rw [hsrc]
      exact fun kv hkv => List.mem_of_mem_filter hkv
    have hstep :
        (t :: ts).foldl (fun filtered tag => mapsCopy filtered (getNotesByTag tag ns)) acc
          = ts.foldl (fun filtered tag => mapsCopy filtered (getNotesByTag tag ns))
              (mapsCopy acc (getNotesByTag t ns)) := rfl
    rw [hstep, ih (mapsCopy acc (getNotesByTag t ns)) (keysUnique_mapsCopy _ acc hacc)
      (mapsCopy_subset husrc hsrcsub haccsub)]
    rw [mem_mapsCopy _ acc husrc]
    constructor
    · rintro ((hmem | ⟨hmem, _⟩) | ⟨hmem, hany⟩)
      · rw [hsrc] at hmem
        refine Or.inr ⟨List.mem_of_mem_filter hmem, ?_⟩
        have := List.of_mem_filter hmem
        simp only [List.any_cons, Bool.or_eq_true]
        exact Or.inl this
      · exact Or.inl hmem
      · refine Or.inr ⟨hmem, ?_⟩
        simp only [List.any_cons, Bool.or_eq_true]
        exact Or.inr hany
    · rintro (hmem | ⟨hmem, hany⟩)
      · by_cases hc : containsKey (getNotesByTag t ns) k = true
        · obtain ⟨m, hm⟩ := containsKey_iff.mp hc
          have hnm : n = m := eq_of_mem_keysUnique hu (haccsub _ hmem) (hsrcsub _ hm)
          exact Or.inl (Or.inl (by rw [hnm]; exact hm))
        · exact Or.inl (Or.inr ⟨hmem, Bool.not_eq_true _ ▸ hc⟩)
      · simp only [List.any_cons, Bool.or_eq_true] at hany
        rcases hany with h1 | h1
        · refine Or.inl (Or.inl ?_)
          rw [hsrc]
          exact List.mem_filter.mpr ⟨hmem, h1⟩
        · exact Or.inr ⟨hmem, h1⟩

/-! ### Sync-engine facts -/

/-- All entries of a sync store are marked synced. -/
def allSynced (s : SStore) : Prop := ∀ kv ∈ s, kv.2.synced = true

instance (s : SStore) : Decidable (allSynced s) := List.decidableBAll _ s

theorem markSynced_eq_self {n : SNote} (h : n.synced = true) :
    { n with synced := true } = n := by
  cases n
  simp_all

theorem collectOut_of_allSynced {s : SStore} (h : allSynced s) : collectOut s = ([], s) := by
  unfold collectOut
  have h1 : s.filter (fun kv => !kv.2.synced) = [] := by
    rw [List.filter_eq_nil_iff]
    intro kv hkv
    simp [h kv hkv]
  have h2 : s.map (fun kv => (kv.1, { kv.2 with synced := true })) = s := by
    have hcongr : s.map (fun kv => (kv.1, { kv.2 with synced := true })) = s.map id := by
      apply List.map_congr_left
      intro kv hkv
      rw [markSynced_eq_self (h kv hkv)]
      rfl
    simpa using hcongr
  rw [h1, h2]
  simp

theorem allSynced_collectOut (s : SStore) : allSynced (collectOut s).2 := by
  rintro ⟨k, n⟩ hkv
  unfold collectOut at hkv
  simp only [List.mem_map] at hkv
  obtain ⟨kv0, _, heq⟩ := hkv
  have := (Prod.mk.injEq .. ▸ heq).2
  rw [← this]

theorem allSynced_insertS {s : SStore} {k : Nat} {v : SNote}
    (h : allSynced s) (hv : v.synced = true) : allSynced (insertS s k v) := by
  unfold insertS
  by_cases hc : s.any (fun kv => kv.1 == k)
  · simp only [hc, if_true]
    rintro ⟨k1, n1⟩ hkv
    simp only [List.mem_map] at hkv
    obtain ⟨kv0, hmem, heq⟩ := hkv
    by_cases hk : kv0.1 == k
    · simp only [hk, if_true] at heq
      have := (Prod.mk.injEq .. ▸ heq).2
      rw [← this]
      exact hv
    · simp only [hk, if_false] at heq  -- hk : ¬(kv0.1 == k) = true
      rw [← heq]
      exact h kv0 hmem
  · rw [Bool.not_eq_true] at hc
    simp only [hc, Bool.false_eq_true, if_false]
    rintro kv hkv
    rcases List.mem_append.mp hkv with hmem | hmem
    · exact h kv hmem
    · rw [List.mem_singleton.mp hmem]
      exact hv

theorem allSynced_mergeIn (batch : List TNote) :
    ∀ s : SStore, allSynced s → allSynced (mergeIn s batch) := by
  induction batch with
  | nil => intro s h; exact h
  | cons t rest ih =>
    intro s h
    exact ih (insertS s t.id (ofTransferable t)) (allSynced_insertS h rfl)

theorem mergeIn_nil (s : SStore) : mergeIn s [] = s := rfl

theorem exchange_allSynced (a b : SStore) :
    allSynced (exchange a b).2.1 ∧ allSynced (exchange a b).2.2 := by
  unfold exchange
  refine ⟨?_, ?_⟩
  · exact allSynced_mergeIn _ _ (allSynced_collectOut a)
  · exact allSynced_collectOut _

theorem exchange_of_allSynced {a b : SStore} (ha : allSynced a) (hb : allSynced b) :
    exchange a b = (([], []), (a, b)) := by
  unfold exchange
  rw [collectOut_of_allSynced ha]
  simp only [mergeIn_nil]
  rw [collectOut_of_allSynced hb]
  simp [mergeIn_nil]

/-! ### Concrete values used by counterexamples and witnesses -/

def exNote1 : Note :=
  { id := 1, kind := "journal", tags := ["a", "b"], text := "t1", date := 100, author := "" }

def exNote2 : Note :=
  { id := 2, kind := "journal", tags := ["a"], text := "t2", date := 200, author := "" }

def exNotes : Notes := [(1, exNote1), (2, exNote2)]

def lateNote : Note :=
  { id := 7, kind := "journal", tags := [], text := "late", date := 86399, author := "" }

def inRangeNote : Note :=
  { id := 3, kind := "journal", tags := [], text := "mid", date := 50000, author := "" }

def c4Note : Note :=
  { id := 1, kind := "a", tags := [], text := "t", date := 100, author := "" }

def absentStore : Storage := { ensureOk := true, doc := .absent }

def corruptStore : Storage := { ensureOk := true, doc := .corrupt }

def ovNote1 : Note :=
  { id := 2147483647, kind := "a", tags := [], text := "old31", date := 1, author := "" }

def ovNote2 : Note :=
  { id := 2147483648, kind := "b", tags := [], text := "old32", date := 2, author := "" }

def ovNotes : Notes := [(2147483647, ovNote1), (2147483648, ovNote2)]

/-! ### The claims -/

/-- C1: the spec states that a by-id query returns at most one entry, and that
an absent id yields an EMPTY collection and no error.  The "at most one entry"
half holds (the result always has exactly one entry), but for an absent id the
code is a slip against the spec's clear intent: line 260 reads
`notes[uint32(id)]` without the comma-ok flag, so the Go zero-value `Note` is
written under key 0 of the result and `plumnote list --id 5` against an empty
collection reports one phantom zero note instead of none. -/
theorem C1_id_absent_phantom :
    filterNotesById 5 [] = [(0, zeroNote)] ∧
    filterNotesById 5 [] ≠ ([] : Notes) ∧
    ∀ (id : Int) (ns : Notes), (filterNotesById id ns).length = 1 := by
  refine ⟨rfl, by decide, ?_⟩
  intro id ns
  rfl

/-- C2 counterexample: with the range (start day 0, end day 0) and one note
dated 86399 s = exactly 23:59:59 local time on the end day, the claim says the
note is included; the strict comparison on line 91 excludes it, returning the
empty collection. -/
theorem C2_counterexample :
    lateNote.date = 0 * 86400 + 86399 ∧
    getNotesByDate 0 0 [(7, lateNote)] = [] := by
  refine ⟨rfl, by decide⟩

/-- C2 (amended): on a well-formed collection the date-range filter keeps
exactly the notes whose local timestamp lies strictly after start-day midnight
and strictly before 23:59:59 on the end day; in particular a note dated
exactly 23:59:59 on the end day is excluded, and so is every note dated at or
past 00:00:01 on the day after the end day. -/
theorem C2_date_range_strict (startDay endDay : Nat) (ns : Notes)
    (hk : keyed ns) (hu : keysUnique ns) (k : Nat) (n : Note) :
    ((k, n) ∈ getNotesByDate startDay endDay ns ↔
      ((k, n) ∈ ns ∧ ((startDay : Int) * 86400 < n.date ∧ n.date < (endDay : Int) * 86400 + 86399))) ∧
    (n.date = (endDay : Int) * 86400 + 86399 → (k, n) ∉ getNotesByDate startDay endDay ns) ∧
    (((endDay : Int) + 1) * 86400 + 1 ≤ n.date → (k, n) ∉ getNotesByDate startDay endDay ns) := by
  have hmain : (k, n) ∈ getNotesByDate startDay endDay ns ↔
      ((k, n) ∈ ns ∧ ((startDay : Int) * 86400 < n.date ∧ n.date < (endDay : Int) * 86400 + 86399)) := by
    unfold getNotesByDate
    rw [notesFilter_eq_filter _ ns hk hu, List.mem_filter]
    simp
  refine ⟨hmain, ?_, ?_⟩
  · intro hdate hmem
    have h2 := (hmain.mp hmem).2.2
    omega
  · intro hdate hmem
    have h2 := (hmain.mp hmem).2.2
    omega

/-- C2 witness: a note strictly inside day 0 is accepted by the amended
characterization. -/
theorem C2_witness :
    keyed [(3, inRangeNote)] ∧ keysUnique [(3, inRangeNote)] ∧
    (3, inRangeNote) ∈ getNotesByDate 0 0 [(3, inRangeNote)] :=
  ⟨by decide, by decide,
    ((C2_date_range_strict 0 0 [(3, inRangeNote)] (by decide) (by decide) 3 inRangeNote).1).mpr
      ⟨by decide, by decide, by decide⟩⟩

/-- C3 (modelled from the spec, §4.3): after one full exchange between any two
stores, a second exchange with no intervening edits transfers the empty batch
in both directions and leaves both stores exactly as the first exchange left
them. -/
theorem C3_sync_exchange_idempotent (a b : SStore) :
    exchange (exchange a b).2.1 (exchange a b).2.2
      = (([], []), ((exchange a b).2.1, (exchange a b).2.2)) :=
  exchange_of_allSynced (exchange_allSynced a b).1 (exchange_allSynced a b).2

/-- C4 counterexample: updating the kind of note 1 (whose date is 100) at any
update time other than 100 — say 200 — leaves `date` at 100: `updateNote`
never touches the `Date` field, and the stored record carries no synced flag
at all.  The claim's "sets its date field to the time of the update" is false
on the code. -/
theorem C4_counterexample :
    updateNote 1 "--kind" "b" [(1, c4Note)]
      = .ok [(1, { id := 1, kind := "b", tags := [], text := "t", date := 100, author := "" })] ∧
    (100 : Int) ≠ 200 := by
  refine ⟨rfl, by decide⟩

/-- C4 (amended): for a collection containing note `n` at the given id, the
update operation replaces exactly the selected field with the supplied value
and leaves every other field — in particular `date` — unchanged; the record
has no synced flag to reset. -/
theorem C4_update_keeps_date (ns : Notes) (id : Nat) (v : String) (n : Note)
    (h : findNote ns id = some n) :
    updateNote id "--tags" v ns = .ok (insertNote ns id { n with tags := splitComma v }) ∧
    updateNote id "--kind" v ns = .ok (insertNote ns id { n with kind := v }) ∧
    updateNote id "--note" v ns = .ok (insertNote ns id { n with text := v }) := by
  unfold updateNote
  rw [h]
  refine ⟨?_, ?_, ?_⟩ <;> simp

/-- C4 witness: the amended statement applied to a concrete store. -/
theorem C4_witness :
    findNote [(1, c4Note)] 1 = some c4Note ∧
    updateNote 1 "--kind" "zz" [(1, c4Note)]
      = .ok (insertNote [(1, c4Note)] 1 { c4Note with kind := "zz" }) :=
  ⟨rfl, (C4_update_keeps_date [(1, c4Note)] 1 "zz" c4Note rfl).2.1⟩

/-- C5: on a well-formed collection, the all-of tag filter (sequential
narrowing) returns exactly the notes carrying every requested tag — the AND of
the single-tag predicates. -/
theorem C5_tags_all_and (tags : List String) (ns : Notes)
    (hk : keyed ns) (hu : keysUnique ns) (_hne : tags ≠ []) :
    getNotesByTagsExact tags ns
      = ns.filter (fun kv => tags.all (fun t => kv.2.tags.contains t)) :=
  getNotesByTagsExact_eq_filter tags ns hk hu

/-- C5 witness: the spec's own example, tags-all("a,b") on
notes 1 (tags a,b) and 2 (tags a). -/
theorem C5_witness :
    keyed exNotes ∧ keysUnique exNotes ∧ ["a", "b"] ≠ ([] : List String) ∧
    getNotesByTagsExact ["a", "b"] exNotes
      = exNotes.filter (fun kv => (["a", "b"]).all (fun t => kv.2.tags.contains t)) :=
  ⟨by decide, by decide, by decide,
    C5_tags_all_and ["a", "b"] exNotes (by decide) (by decide) (by decide)⟩

/-- C6: on a well-formed collection, the any-of tag filter holds exactly the
notes carrying at least one requested tag — equivalently, the union over the
requested tags of the single-tag filter results. -/
theorem C6_tags_any_union (tags : List String) (ns : Notes)
    (hk : keyed ns) (hu : keysUnique ns) (k : Nat) (n : Note) :
    ((k, n) ∈ getNotesByTags tags ns ↔
      ((k, n) ∈ ns ∧ tags.any (fun t => n.tags.contains t) = true)) ∧
    ((k, n) ∈ getNotesByTags tags ns ↔ ∃ t ∈ tags, (k, n) ∈ getNotesByTag t ns) := by
  have hmain := getNotesByTags_go ns hk hu k n tags []
    (by simp [keysUnique]) (fun kv hkv => absurd hkv (List.not_mem_nil kv))
  have h1 : (k, n) ∈ getNotesByTags tags ns ↔
      ((k, n) ∈ ns ∧ tags.any (fun t => n.tags.contains t) = true) := by
    unfold getNotesByTags
    rw [hmain]
    simp
  refine ⟨h1, h1.trans ?_⟩
  constructor
  · rintro ⟨hmem, hany⟩
    obtain ⟨t, ht, hcont⟩ := List.any_eq_true.mp hany
    refine ⟨t, ht, ?_⟩
    rw [getNotesByTag_eq_filter t ns hk hu]
    exact List.mem_filter.mpr ⟨hmem, hcont⟩
  · rintro ⟨t, ht, hmem⟩
    rw [getNotesByTag_eq_filter t ns hk hu] at hmem
    have hcont : n.tags.contains t = true := (List.mem_filter.mp hmem).2
    exact ⟨List.mem_of_mem_filter hmem, List.any_eq_true.mpr ⟨t, ht, hcont⟩⟩

/-- C6 witness: the spec's own example, tags-any("a,b") contains note 2, which
carries only tag a. -/
theorem C6_witness :
    keyed exNotes ∧ keysUnique exNotes ∧
    (2, exNote2) ∈ getNotesByTags ["a", "b"] exNotes :=
  ⟨by decide, by decide,
    ((C6_tags_any_union ["a", "b"] exNotes (by decide) (by decide) 2 exNote2).1).mpr
      ⟨by decide, by decide⟩⟩

/-- C7: when the parent location is creatable and the document does not exist,
`load` returns the empty collection and no error; when the document exists but
cannot be parsed, `load` fails with an error. -/
theorem C7_load_semantics (s t : Storage)
    (h1 : s.ensureOk = true) (h2 : s.doc = DocState.absent)
    (h3 : t.ensureOk = true) (h4 : t.doc = DocState.corrupt) :
    load s = .ok ([] : Notes) ∧ load t = .error "CorruptStore" := by
  constructor
  · unfold load
    rw [h1, h2]
    rfl
  · unfold load
    rw [h3, h4]
    rfl

/-- C7 witness: concrete storages with an absent and a corrupt document. -/
theorem C7_witness :
    absentStore.ensureOk = true ∧ absentStore.doc = DocState.absent ∧
    corruptStore.ensureOk = true ∧ corruptStore.doc = DocState.corrupt ∧
    (load absentStore = .ok ([] : Notes) ∧ load corruptStore = .error "CorruptStore") :=
  ⟨rfl, rfl, rfl, rfl, C7_load_semantics absentStore corruptStore rfl rfl rfl rfl⟩

/-- C8: updating at an id absent from the collection does not fail: it inserts
a phantom note whose fields are the Go zero values (id 0, empty kind, no tags,
empty text, zero date, empty author) except for the one selected field, and
the returned (persisted) collection contains that phantom. -/
theorem C8_update_absent_inserts_phantom (ns : Notes) (id : Nat) (v : String)
    (h : findNote ns id = none) :
    updateNote id "--tags" v ns
      = .ok (insertNote ns id
          { id := 0, kind := "", tags := splitComma v, text := "", date := 0, author := "" }) ∧
    updateNote id "--kind" v ns
      = .ok (insertNote ns id
          { id := 0, kind := v, tags := [], text := "", date := 0, author := "" }) ∧
    updateNote id "--note" v ns
      = .ok (insertNote ns id
          { id := 0, kind := "", tags := [], text := v, date := 0, author := "" }) := by
  unfold updateNote
  rw [h]
  refine ⟨?_, ?_, ?_⟩ <;> simp [zeroNote]

/-- C8 witness: updating the kind at the absent id 42. -/
theorem C8_witness :
    findNote exNotes 42 = none ∧
    updateNote 42 "--kind" "todo" exNotes
      = .ok (insertNote exNotes 42
          { id := 0, kind := "todo", tags := [], text := "", date := 0, author := "" }) :=
  ⟨rfl, (C8_update_absent_inserts_phantom exNotes 42 "todo" rfl).2.1⟩

/-- C9: argument lists ending in a short flag crash the scanning loops: the
bounds check `i+1 < len(args)` is AND-combined only with the long-flag
comparison, so `args[i+1]` is read out of range for a trailing `-i` (remove,
length 2) and for a trailing `-k` or `-t` (add, length 3), while a trailing
long flag is guarded and merely ignored. -/
theorem C9_short_flag_out_of_range :
    removeNoteScan ["x", "-i"] = .outOfRange ∧
    (["x", "-i"] : List String).length = 2 ∧
    addNoteScan ["x", "y", "-k"] = .outOfRange ∧
    addNoteScan ["x", "y", "-t"] = .outOfRange ∧
    (["x", "y", "-k"] : List String).length = 3 ∧
    (["x", "y", "-t"] : List String).length = 3 ∧
    removeNoteScan ["x", "--id"] = .ok 0 := by
  refine ⟨by decide, by decide, by decide, by decide, by decide, by decide, by decide⟩

/-- C10: in a collection holding the ids `2^31 - 1` and `2^31`, the id `2^31`
reads as a negative `int32`, so `getHighestId` returns `2^31 - 1`; the `int32`
increment wraps to `-2^31` and `uint32(-2^31) = 2^31`, so `addNote` assigns the
fresh id `2^31` — an id already present — and silently overwrites that note. -/
theorem C10_int32_overflow_overwrite :
    2 ^ 31 ≤ ovNote2.id ∧
    int32ofUInt32 ovNote2.id < 0 ∧
    getHighestId ovNotes = 2147483647 ∧
    freshId ovNotes = 2147483648 ∧
    containsKey ovNotes (freshId ovNotes) = true ∧
    findNote (addNoteCore "k" [] "new" 9 "me" ovNotes) 2147483648
      = some { id := 2147483648, kind := "k", tags := [], text := "new", date := 9, author := "me" } ∧
    ({ id := 2147483648, kind := "k", tags := [], text := "new", date := 9, author := "me" } : Note)
      ≠ ovNote2 := by
  refine ⟨by decide, by decide, by decide, by decide, by decide, by decide, by decide⟩

end Plumnote
